import Mathlib

/-!
Shallow embedding of `lightrag/rerank.py` (document reranking client layer):
chunking of over-long documents (`chunk_documents_for_rerank`), aggregation of
chunk scores back to documents (`aggregate_chunk_scores`), the generic
protocol adapter (`generic_rerank_api`) and the batched TEI transport
(`tei_rerank`), together with theorems settling the specification claims.

Modelling conventions:
* a document is its token sequence (`List α`); the tokenizer path of the
  Python code encodes to tokens, slides a window, and decodes each window, so
  all index/coverage behaviour lives at the token level; the character
  fallback is the same algorithm with `α = Char` and the 4-chars-per-token
  scaled limits.  The sliding-window loop is embedded fuel-based
  (`Option`-valued) because for `max_tokens = 0` the Python loop does not
  terminate; adequate fuel is proved for `1 ≤ max_tokens`.
* scores are `ℚ` (exact stand-in for Python floats), result dictionaries
  `{"index": int, "relevance_score": float}` are `RawResult`.
* the HTTP backend is a function argument producing either a transport
  failure (connection error, or a non-200 response which the Python code
  converts to `aiohttp.ClientResponseError`) or a parsed JSON body.
* Python's stable `list.sort(key=score, reverse=True)` is a stable
  insertion sort on the reversed `≤` test (extensionally equal to any
  stable sort on that key, and kernel-evaluable).
-/

namespace RerankSpec

/-- `{"index": int, "relevance_score": float}` dictionaries: one rerank
result, both as returned by a backend (index into the sent list) and as
returned to the caller (index into the original document list). -/
structure RawResult where
  index : Int
  relevance_score : ℚ
deriving DecidableEq, Repr

/-- One step of stable descending insertion: `r` goes in front of the first
element whose score is at most `r`'s, so among equal scores earlier input
elements stay first. -/
def insertDesc (r : RawResult) : List RawResult → List RawResult
  | [] => [r]
  | x :: xs =>
    if x.relevance_score ≤ r.relevance_score then r :: x :: xs
    else x :: insertDesc r xs

/-- Python `list.sort(key=lambda x: x["relevance_score"], reverse=True)`:
stable sort, highest score first (embedded as stable insertion sort, which
agrees with any stable sort on this key). -/
def sort_by_score_desc (l : List RawResult) : List RawResult :=
  l.foldr insertDesc []

/-- Descending-by-score order predicate for result lists. -/
def SortedByScoreDesc (l : List RawResult) : Prop :=
  l.Pairwise fun a b => b.relevance_score ≤ a.relevance_score

/-! ## Chunker (`chunk_documents_for_rerank`, rerank.py lines 22-113) -/

/-- The clamp at the top of `chunk_documents_for_rerank`: if
`overlap_tokens >= max_tokens` the overlap becomes
`max(0, max_tokens - 1)` (here `max_tokens - 1` in `Nat`), else it is kept. -/
def effective_overlap (max_tokens overlap_tokens : Nat) : Nat :=
  if max_tokens ≤ overlap_tokens then max_tokens - 1 else overlap_tokens

/-- The sliding-window loop (`while start < len(tokens)` at lines 102-111):
`end = min(start + max_tokens, len)`, emit `tokens[start:end]`, stop once
`end` reaches the length, else continue from `start = end - overlap`.
Fuel-based: `none` means the fuel ran out (the Python loop would still be
running). -/
def chunkLoop (doc : List α) (maxT ovl : Nat) : Nat → Nat → Option (List (List α))
  | _, 0 => none
  | start, fuel + 1 =>
    if start < doc.length then
      if doc.length ≤ min (start + maxT) doc.length then
        some [(doc.drop start).take (min (start + maxT) doc.length - start)]
      else
        match chunkLoop doc maxT ovl (min (start + maxT) doc.length - ovl) fuel with
        | some rest => some ((doc.drop start).take (min (start + maxT) doc.length - start) :: rest)
        | none => none
    else
      some []

/-- Chunking of one document (lines 95-111): a document of at most
`maxT` tokens is one chunk, otherwise the sliding-window loop runs
(with fuel `doc.length + 1`, proved sufficient when `1 ≤ maxT`). -/
def chunkDoc (maxT ovl : Nat) (doc : List α) : Option (List (List α)) :=
  if doc.length ≤ maxT then some [doc]
  else chunkLoop doc maxT ovl 0 (doc.length + 1)

/-- The `for idx, doc in enumerate(documents)` loop (lines 92-111): each
document contributes its chunks to `chunked_docs` and one copy of its index
per chunk to `doc_indices`. -/
def chunkAll (maxT ovl : Nat) : List (List α) → Nat → Option (List (List α) × List Nat)
  | [], _ => some ([], [])
  | d :: ds, idx =>
    match chunkDoc maxT ovl d, chunkAll maxT ovl ds (idx + 1) with
    | some cs, some (cs', is') =>
        some (cs ++ cs', List.replicate cs.length idx ++ is')
    | _, _ => none

/-- `chunk_documents_for_rerank(documents, max_tokens, overlap_tokens)`:
clamp the overlap, then chunk every document, returning the flat chunk list
and the parallel origin-index list. -/
def chunk_documents_for_rerank (documents : List (List α))
    (max_tokens overlap_tokens : Nat) : Option (List (List α) × List Nat) :=
  chunkAll max_tokens (effective_overlap max_tokens overlap_tokens) documents 0

/-- Removing the overlap: keep the first chunk whole and drop the first
`ovl` tokens of every later chunk, then concatenate. -/
def deoverlap (ovl : Nat) : List (List α) → List α
  | [] => []
  | c :: cs => c ++ (cs.map (List.drop ovl)).flatten

/-- Chunks belonging to origin index `i`: filter the chunk list by the
parallel origin list. -/
def selectChunks (cs : List (List α)) (idxs : List Nat) (i : Nat) : List (List α) :=
  (cs.zip idxs).filterMap fun p => if p.2 = i then some p.1 else none

/-! ### Chunker lemmas -/

theorem effective_overlap_lt (maxT ovl : Nat) (h : 1 ≤ maxT) :
    effective_overlap maxT ovl < maxT := by
  unfold effective_overlap
  split <;> omega

theorem chunkLoop_isSome (doc : List α) (maxT ovl : Nat) (hovl : ovl < maxT) :
    ∀ fuel start, doc.length - start < fuel →
      (chunkLoop doc maxT ovl start fuel).isSome := by
  intro fuel
  induction fuel with
  | zero => intro start h; omega
  | succ n ih =>
    intro start h
    unfold chunkLoop
    by_cases hs : start < doc.length
    · simp only [hs, if_true]
      by_cases he : doc.length ≤ min (start + maxT) doc.length
      · simp [he]
      · simp only [he, if_false]
        have hmin : min (start + maxT) doc.length = start + maxT := by omega
        have : doc.length - (min (start + maxT) doc.length - ovl) < n := by omega
        have := ih (min (start + maxT) doc.length - ovl) this
        revert this
        cases chunkLoop doc maxT ovl (min (start + maxT) doc.length - ovl) n <;> simp
    · simp [hs]

theorem chunkDoc_isSome (maxT ovl : Nat) (doc : List α)
    (hovl : ovl < maxT) : (chunkDoc maxT ovl doc).isSome := by
  unfold chunkDoc
  split
  · simp
  · exact chunkLoop_isSome doc maxT ovl hovl _ 0 (by omega)

theorem chunkAll_isSome (maxT ovl : Nat) (hovl : ovl < maxT) :
    ∀ (ds : List (List α)) (idx : Nat), (chunkAll maxT ovl ds idx).isSome := by
  intro ds
  induction ds with
  | nil => intro idx; simp [chunkAll]
  | cons d ds ih =>
    intro idx
    unfold chunkAll
    obtain ⟨cs, hcs⟩ := Option.isSome_iff_exists.mp (chunkDoc_isSome maxT ovl d hovl)
    obtain ⟨⟨cs', is'⟩, hp⟩ := Option.isSome_iff_exists.mp (ih (idx + 1))
    rw [hcs, hp]
    simp

theorem slice_drop (doc : List α) (start k ovl : Nat) :
    ((doc.drop start).take k).drop ovl = (doc.drop (start + ovl)).take (k - ovl) := by
  rw [List.drop_take, List.drop_drop]

theorem chunkLoop_flatten_drop (doc : List α) (maxT ovl : Nat) (hovl : ovl < maxT) :
    ∀ fuel start cs, chunkLoop doc maxT ovl start fuel = some cs →
      (cs.map (List.drop ovl)).flatten = doc.drop (start + ovl) := by
  intro fuel
  induction fuel with
  | zero => intro start cs h; simp [chunkLoop] at h
  | succ n ih =>
    intro start cs h
    unfold chunkLoop at h
    by_cases hs : start < doc.length
    · simp only [hs, if_true] at h
      by_cases he : doc.length ≤ min (start + maxT) doc.length
      · simp only [he, if_true, Option.some.injEq] at h
        subst h
        have hmin : min (start + maxT) doc.length = doc.length := by omega
        rw [hmin]
        simp only [List.map_cons, List.map_nil, List.flatten_cons, List.flatten_nil,
          List.append_nil, slice_drop]
        have hlen : (doc.drop (start + ovl)).length ≤ doc.length - start - ovl := by
          rw [List.length_drop]; omega
        rw [List.take_of_length_le hlen]
      · simp only [he, if_false] at h
        have hmin : min (start + maxT) doc.length = start + maxT := by omega
        cases hrec : chunkLoop doc maxT ovl (min (start + maxT) doc.length - ovl) n with
        | none => rw [hrec] at h; exact absurd h (by simp)
        | some rest =>
          rw [hrec] at h
          simp only [Option.some.injEq] at h
          subst h
          have hrest := ih _ rest hrec
          rw [hmin] at hrest
          have harg : start + maxT - ovl + ovl = start + maxT := by omega
          rw [harg] at hrest
          simp only [List.map_cons, List.flatten_cons, hrest, hmin, slice_drop]
          have h1 : start + maxT - start - ovl = maxT - ovl := by omega
          have h2 : doc.drop (start + maxT) = (doc.drop (start + ovl)).drop (maxT - ovl) := by
            rw [List.drop_drop]; congr 1; omega
          rw [h1, h2, List.take_append_drop]
    · simp only [hs, if_false, Option.some.injEq] at h
      subst h
      rw [List.drop_eq_nil_of_le (by omega)]
      simp

theorem chunkLoop_deoverlap (doc : List α) (maxT ovl : Nat) (hovl : ovl < maxT)
    (fuel start : Nat) (cs : List (List α))
    (h : chunkLoop doc maxT ovl start fuel = some cs) :
    deoverlap ovl cs = doc.drop start := by
  cases fuel with
  | zero => simp [chunkLoop] at h
  | succ n =>
    unfold chunkLoop at h
    by_cases hs : start < doc.length
    · simp only [hs, if_true] at h
      by_cases he : doc.length ≤ min (start + maxT) doc.length
      · simp only [he, if_true, Option.some.injEq] at h
        subst h
        have hmin : min (start + maxT) doc.length = doc.length := by omega
        rw [hmin]
        simp only [deoverlap, List.map_nil, List.flatten_nil, List.append_nil]
        have hlen : (doc.drop start).length ≤ doc.length - start := by
          rw [List.length_drop]
        rw [List.take_of_length_le hlen]
      · simp only [he, if_false] at h
        have hmin : min (start + maxT) doc.length = start + maxT := by omega
        cases hrec : chunkLoop doc maxT ovl (min (start + maxT) doc.length - ovl) n with
        | none => rw [hrec] at h; exact absurd h (by simp)
        | some rest =>
          rw [hrec] at h
          simp only [Option.some.injEq] at h
          subst h
          have hrest := chunkLoop_flatten_drop doc maxT ovl hovl n _ rest hrec
          rw [hmin] at hrest
          have harg : start + maxT - ovl + ovl = start + maxT := by omega
          rw [harg] at hrest
          simp only [deoverlap, hrest, hmin]
          have h1 : start + maxT - start = maxT := by omega
          have h2 : doc.drop (start + maxT) = (doc.drop start).drop maxT := by
            rw [List.drop_drop]
          rw [h1, h2, List.take_append_drop]
    · simp only [hs, if_false, Option.some.injEq] at h
      subst h
      rw [List.drop_eq_nil_of_le (by omega)]
      rfl

theorem chunkDoc_deoverlap (maxT ovl : Nat) (doc : List α) (hovl : ovl < maxT)
    (cs : List (List α)) (h : chunkDoc maxT ovl doc = some cs) :
    deoverlap ovl cs = doc := by
  unfold chunkDoc at h
  split at h
  · simp only [Option.some.injEq] at h
    subst h
    simp [deoverlap]
  · have := chunkLoop_deoverlap doc maxT ovl hovl _ 0 cs h
    simpa using this

theorem chunkDoc_ne_nil (maxT ovl : Nat) (doc : List α)
    (cs : List (List α)) (h : chunkDoc maxT ovl doc = some cs) : cs ≠ [] := by
  unfold chunkDoc at h
  split at h
  · simp only [Option.some.injEq] at h; subst h; simp
  · rename_i hlen
    unfold chunkLoop at h
    have h0 : 0 < doc.length := by omega
    simp only [h0, if_true] at h
    by_cases he : doc.length ≤ min (0 + maxT) doc.length
    · simp only [he, if_true, Option.some.injEq] at h
      subst h; simp
    · simp only [he, if_false] at h
      cases hrec : chunkLoop doc maxT ovl (min (0 + maxT) doc.length - ovl) doc.length with
      | none => rw [hrec] at h; exact absurd h (by simp)
      | some rest =>
        rw [hrec] at h
        simp only [Option.some.injEq] at h
        subst h; simp

theorem selectChunks_append (a b : List (List α)) (x y : List Nat) (i : Nat)
    (hlen : a.length = x.length) :
    selectChunks (a ++ b) (x ++ y) i = selectChunks a x i ++ selectChunks b y i := by
  unfold selectChunks
  rw [List.zip_append hlen, List.filterMap_append]

theorem selectChunks_replicate (dcs : List (List α)) (j i : Nat) :
    selectChunks dcs (List.replicate dcs.length j) i = if j = i then dcs else [] := by
  induction dcs with
  | nil => simp [selectChunks]
  | cons c cs ih =>
    simp only [List.length_cons, List.replicate_succ]
    unfold selectChunks at *
    simp only [List.zip_cons_cons, List.filterMap_cons]
    by_cases hj : j = i
    · simp only [hj, if_true] at ih ⊢
      simp [ih]
    · simp only [hj, if_false] at ih ⊢
      simp [ih]

theorem selectChunks_eq_nil (cs : List (List α)) (idxs : List Nat) (i : Nat)
    (h : ∀ x ∈ idxs, x ≠ i) : selectChunks cs idxs i = [] := by
  induction cs generalizing idxs with
  | nil => simp [selectChunks]
  | cons c cs ih =>
    cases idxs with
    | nil => simp [selectChunks]
    | cons j js =>
      unfold selectChunks
      simp only [List.zip_cons_cons, List.filterMap_cons]
      have hj : j ≠ i := h j (by simp)
      simp only [hj, if_false]
      exact ih js fun x hx => h x (by simp [hx])

theorem chunkAll_spec (maxT ovl : Nat) :
    ∀ (ds : List (List α)) (idx : Nat) (cs : List (List α)) (idxs : List Nat),
      chunkAll maxT ovl ds idx = some (cs, idxs) →
      cs.length = idxs.length ∧
      (∀ x ∈ idxs, idx ≤ x ∧ x < idx + ds.length) ∧
      ∀ k (hk : k < ds.length), ∃ dcs,
        chunkDoc maxT ovl (ds.get ⟨k, hk⟩) = some dcs ∧
        selectChunks cs idxs (idx + k) = dcs := by
  intro ds
  induction ds with
  | nil =>
    intro idx cs idxs h
    simp only [chunkAll, Option.some.injEq, Prod.mk.injEq] at h
    obtain ⟨h1, h2⟩ := h
    subst h1; subst h2
    refine ⟨rfl, by simp, ?_⟩
    intro k hk
    simp at hk
  | cons d ds ih =>
    intro idx cs idxs h
    unfold chunkAll at h
    cases hd : chunkDoc maxT ovl d with
    | none => rw [hd] at h; exact absurd h (by simp)
    | some dcs =>
      cases hrest : chunkAll maxT ovl ds (idx + 1) with
      | none => rw [hd, hrest] at h; exact absurd h (by simp)
      | some p =>
        obtain ⟨cs', is'⟩ := p
        rw [hd, hrest] at h
        simp only [Option.some.injEq, Prod.mk.injEq] at h
        obtain ⟨h1, h2⟩ := h
        subst h1; subst h2
        obtain ⟨ihlen, ihbound, ihsel⟩ := ih (idx + 1) cs' is' hrest
        have hreplen : dcs.length = (List.replicate dcs.length idx).length := by simp
        refine ⟨?_, ?_, ?_⟩
        · simp [ihlen]
        · intro x hx
          rcases List.mem_append.mp hx with hx | hx
          · have := List.eq_of_mem_replicate hx
            subst this
            simp only [List.length_cons]
            omega
          · have := ihbound x hx
            simp only [List.length_cons]
            omega
        · intro k hk
          cases k with
          | zero =>
            refine ⟨dcs, by simpa using hd, ?_⟩
            rw [selectChunks_append _ _ _ _ _ hreplen.symm.symm]
            · rw [selectChunks_replicate]
              simp only [Nat.add_zero, if_pos rfl]
              rw [selectChunks_eq_nil cs' is' idx
                (fun x hx => by have := ihbound x hx; omega)]
              simp
          | succ k =>
            have hk' : k < ds.length := by
              simp only [List.length_cons] at hk
              omega
            obtain ⟨dcs', hdcs', hsel'⟩ := ihsel k hk'
            refine ⟨dcs', by simpa using hdcs', ?_⟩
            rw [selectChunks_append _ _ _ _ _ hreplen.symm.symm]
            rw [selectChunks_replicate]
            have : idx ≠ idx + (k + 1) := by omega
            rw [if_neg this]
            have harg : idx + (k + 1) = idx + 1 + k := by omega
            rw [harg, hsel']
            simp

/-- C4: for every input with `max_tokens ≥ 1`, `chunk_documents_for_rerank`
terminates (the fuel-based loop yields a result); whenever
`overlap_tokens ≥ max_tokens` the effective overlap is clamped to
`max_tokens - 1` (Python `max(0, max_tokens - 1)`), so the sliding window
always advances; in particular with `max_tokens = 1` and `overlap_tokens = 5`
the call terminates and the effective overlap is `0`. -/
theorem chunking_terminates (documents : List (List α))
    (max_tokens overlap_tokens : Nat) (hmax : 1 ≤ max_tokens) :
    (chunk_documents_for_rerank documents max_tokens overlap_tokens).isSome ∧
    (max_tokens ≤ overlap_tokens →
      effective_overlap max_tokens overlap_tokens = max_tokens - 1) ∧
    effective_overlap 1 5 = 0 := by
  refine ⟨?_, ?_, rfl⟩
  · exact chunkAll_isSome max_tokens _
      (effective_overlap_lt max_tokens overlap_tokens hmax) documents 0
  · intro h
    unfold effective_overlap
    rw [if_pos h]

theorem chunking_terminates_witness :
    1 ≤ 1 ∧
    ((chunk_documents_for_rerank [[0, 1, 2]] 1 5).isSome ∧
     (1 ≤ 5 → effective_overlap 1 5 = 1 - 1) ∧
     effective_overlap 1 5 = 0) :=
  ⟨by decide, chunking_terminates ([[0, 1, 2]] : List (List Nat)) 1 5 (by decide)⟩

/-- C5: for every document, concatenating the chunks produced for it (chunks
are selected by the origin-index list; consecutive chunks are de-overlapped
by dropping the effective overlap from every chunk after the first)
reconstructs the document's original token sequence, and every origin index
refers to a position of the input list. -/
theorem chunk_coverage (documents : List (List α)) (max_tokens overlap_tokens : Nat)
    (cs : List (List α)) (idxs : List Nat) (hmax : 1 ≤ max_tokens)
    (h : chunk_documents_for_rerank documents max_tokens overlap_tokens = some (cs, idxs)) :
    cs.length = idxs.length ∧
    (∀ x ∈ idxs, x < documents.length) ∧
    ∀ i (hi : i < documents.length),
      deoverlap (effective_overlap max_tokens overlap_tokens) (selectChunks cs idxs i)
        = documents.get ⟨i, hi⟩ := by
  obtain ⟨hlen, hbound, hsel⟩ := chunkAll_spec max_tokens _ documents 0 cs idxs h
  refine ⟨hlen, fun x hx => by have := (hbound x hx).2; omega, ?_⟩
  intro i hi
  obtain ⟨dcs, hdcs, hselect⟩ := hsel i hi
  have hzero : (0 : Nat) + i = i := by omega
  rw [hzero] at hselect
  rw [hselect]
  exact chunkDoc_deoverlap max_tokens _ _
    (effective_overlap_lt max_tokens overlap_tokens hmax) dcs hdcs

theorem chunk_coverage_witness :
    1 ≤ 3 ∧
    (([[0, 1, 2], [2, 3, 4], [9]] : List (List Nat)).length = [0, 0, 1].length ∧
     (∀ x ∈ [0, 0, 1], x < ([[0, 1, 2, 3, 4], [9]] : List (List Nat)).length) ∧
     ∀ i (hi : i < ([[0, 1, 2, 3, 4], [9]] : List (List Nat)).length),
       deoverlap (effective_overlap 3 1)
         (selectChunks [[0, 1, 2], [2, 3, 4], [9]] [0, 0, 1] i)
         = ([[0, 1, 2, 3, 4], [9]] : List (List Nat)).get ⟨i, hi⟩) :=
  ⟨by decide,
   chunk_coverage [[0, 1, 2, 3, 4], [9]] 3 1 [[0, 1, 2], [2, 3, 4], [9]] [0, 0, 1]
     (by decide) (by decide)⟩

/-! ### Sorting lemmas -/

theorem insertDesc_perm (r : RawResult) (l : List RawResult) :
    (insertDesc r l).Perm (r :: l) := by
  induction l with
  | nil => simp [insertDesc]
  | cons x xs ih =>
    unfold insertDesc
    split
    · exact List.Perm.refl _
    · exact (ih.cons x).trans (List.Perm.swap r x xs)

theorem sort_by_score_desc_perm (l : List RawResult) :
    (sort_by_score_desc l).Perm l := by
  induction l with
  | nil => simp [sort_by_score_desc]
  | cons x xs ih =>
    unfold sort_by_score_desc at *
    exact (insertDesc_perm x (xs.foldr insertDesc [])).trans (ih.cons x)

theorem mem_insertDesc (r y : RawResult) (l : List RawResult) :
    y ∈ insertDesc r l ↔ y = r ∨ y ∈ l := by
  rw [(insertDesc_perm r l).mem_iff]
  simp

theorem insertDesc_sorted (r : RawResult) (l : List RawResult)
    (h : SortedByScoreDesc l) : SortedByScoreDesc (insertDesc r l) := by
  induction l with
  | nil => simp [insertDesc, SortedByScoreDesc]
  | cons x xs ih =>
    unfold insertDesc
    rw [SortedByScoreDesc] at h
    rcases List.pairwise_cons.mp h with ⟨hx, hxs⟩
    split
    · rename_i hle
      rw [SortedByScoreDesc, List.pairwise_cons]
      refine ⟨?_, h⟩
      intro b hb
      rcases List.mem_cons.mp hb with hb | hb
      · subst hb; exact hle
      · exact le_trans (hx b hb) hle
    · rename_i hle
      rw [SortedByScoreDesc, List.pairwise_cons]
      refine ⟨?_, ih hxs⟩
      intro b hb
      rcases (mem_insertDesc r b xs).mp hb with hb | hb
      · subst hb; exact le_of_not_le hle
      · exact hx b hb

theorem sort_by_score_desc_sorted (l : List RawResult) :
    SortedByScoreDesc (sort_by_score_desc l) := by
  induction l with
  | nil => simp [sort_by_score_desc, SortedByScoreDesc]
  | cons x xs ih =>
    unfold sort_by_score_desc at *
    exact insertDesc_sorted x _ ih

theorem SortedByScoreDesc.take (l : List RawResult) (n : Nat)
    (h : SortedByScoreDesc l) : SortedByScoreDesc (l.take n) :=
  List.Pairwise.sublist (List.take_sublist n l) h

/-! ## Score Aggregator (`aggregate_chunk_scores`, rerank.py lines 116-171) -/

/-- Python `max()` over a (nonempty) list of scores. -/
def pyMax (l : List ℚ) : ℚ := l.foldl max (l.headD 0)

/-- The group of scores collected for original document `d`
(lines 135-143): walk `chunk_results` in order, keep the scores of results
whose chunk index is in range for `doc_indices` and maps to `d`. -/
def scoresFor (chunk_results : List RawResult) (doc_indices : List Nat) (d : Nat) :
    List ℚ :=
  chunk_results.filterMap fun r =>
    if 0 ≤ r.index ∧ r.index.toNat < doc_indices.length ∧
        doc_indices.getD r.index.toNat 0 = d
    then some r.relevance_score else none

/-- `doc_scores` only has keys `0 .. num_original_docs - 1`; appending under
a key outside that range raises `KeyError` in Python.  This guard holds iff
every in-range chunk index maps to a valid document index. -/
def agg_ok (chunk_results : List RawResult) (doc_indices : List Nat) (num : Nat) :
    Bool :=
  chunk_results.all fun r =>
    decide (0 ≤ r.index → r.index.toNat < doc_indices.length →
      doc_indices.getD r.index.toNat 0 < num)

/-- Collapse one group of scores per strategy (lines 151-159): `max`, `mean`
(`sum(scores) / len(scores)`), `first` (`scores[0]`), anything else falls
back to `max` (with a logged warning). -/
def aggScore (aggregation : String) (scores : List ℚ) : ℚ :=
  if aggregation = "max" then pyMax scores
  else if aggregation = "mean" then scores.sum / scores.length
  else if aggregation = "first" then scores.headD 0
  else pyMax scores

/-- `aggregate_chunk_scores(chunk_results, doc_indices, num_original_docs,
aggregation)`: group by original document (dict iteration order is key
insertion order `0 .. num-1`), skip empty groups, collapse each group,
sort descending by score.  `none` models the `KeyError` raised when a chunk
maps to a document index outside `range(num_original_docs)`. -/
def aggregate_chunk_scores (chunk_results : List RawResult) (doc_indices : List Nat)
    (num_original_docs : Nat) (aggregation : String) : Option (List RawResult) :=
  if agg_ok chunk_results doc_indices num_original_docs then
    some (sort_by_score_desc ((List.range num_original_docs).filterMap fun d =>
      if scoresFor chunk_results doc_indices d = [] then none
      else some ⟨(d : Int),
        aggScore aggregation (scoresFor chunk_results doc_indices d)⟩))
  else none

/-! ### Aggregator lemmas -/

theorem foldl_max_mem (l : List ℚ) (a : ℚ) : l.foldl max a = a ∨ l.foldl max a ∈ l := by
  induction l generalizing a with
  | nil => left; rfl
  | cons x xs ih =>
    simp only [List.foldl_cons]
    rcases ih (max a x) with h | h
    · rw [h]
      rcases max_choice a x with h' | h'
      · left; exact h'
      · right; rw [h']; simp
    · right; simp [h]

theorem le_foldl_max (l : List ℚ) (a : ℚ) :
    a ≤ l.foldl max a ∧ ∀ x ∈ l, x ≤ l.foldl max a := by
  induction l generalizing a with
  | nil => exact ⟨le_refl a, by simp⟩
  | cons y ys ih =>
    simp only [List.foldl_cons]
    obtain ⟨h1, h2⟩ := ih (max a y)
    refine ⟨le_trans (le_max_left a y) h1, ?_⟩
    intro x hx
    rcases List.mem_cons.mp hx with hx | hx
    · subst hx; exact le_trans (le_max_right a x) h1
    · exact h2 x hx

theorem pyMax_mem (l : List ℚ) (h : l ≠ []) : pyMax l ∈ l := by
  unfold pyMax
  rcases foldl_max_mem l (l.headD 0) with h' | h'
  · rw [h']
    cases l with
    | nil => exact absurd rfl h
    | cons x xs => simp
  · exact h'

theorem le_pyMax (l : List ℚ) (x : ℚ) (hx : x ∈ l) : x ≤ pyMax l :=
  (le_foldl_max l (l.headD 0)).2 x hx

/-- Membership in the aggregated output: every document with a nonempty
score group contributes exactly the collapsed entry. -/
theorem aggregate_mem (chunk_results : List RawResult) (doc_indices : List Nat)
    (num : Nat) (strategy : String) (out : List RawResult)
    (h : aggregate_chunk_scores chunk_results doc_indices num strategy = some out)
    (d : Nat) (hd : d < num) (hne : scoresFor chunk_results doc_indices d ≠ []) :
    (⟨(d : Int), aggScore strategy (scoresFor chunk_results doc_indices d)⟩ : RawResult)
      ∈ out := by
  unfold aggregate_chunk_scores at h
  split at h
  · simp only [Option.some.injEq] at h
    subst h
    rw [(sort_by_score_desc_perm _).mem_iff]
    rw [List.mem_filterMap]
    exact ⟨d, List.mem_range.mpr hd, by rw [if_neg hne]⟩
  · exact absurd h (by simp)

/-- Every aggregated entry comes from a document index with a nonempty
group and carries the collapsed score of that group. -/
theorem aggregate_shape (chunk_results : List RawResult) (doc_indices : List Nat)
    (num : Nat) (strategy : String) (out : List RawResult)
    (h : aggregate_chunk_scores chunk_results doc_indices num strategy = some out) :
    ∀ r ∈ out, ∃ d : Nat, d < num ∧ r.index = (d : Int) ∧
      scoresFor chunk_results doc_indices d ≠ [] ∧
      r.relevance_score = aggScore strategy (scoresFor chunk_results doc_indices d) := by
  unfold aggregate_chunk_scores at h
  split at h
  · simp only [Option.some.injEq] at h
    subst h
    intro r hr
    rw [(sort_by_score_desc_perm _).mem_iff, List.mem_filterMap] at hr
    obtain ⟨d, hd, hfd⟩ := hr
    split at hfd
    · exact absurd hfd (by simp)
    · rename_i hne
      simp only [Option.some.injEq] at hfd
      subst hfd
      exact ⟨d, List.mem_range.mp hd, rfl, hne, rfl⟩
  · exact absurd h (by simp)

/-- C2 counterexample: with `chunk_results` ordered by score rather than by
chunk index (exactly how `tei_rerank` calls the aggregator), strategy
`first` returns the group's first score in `chunk_results` order — here the
score `5` of chunk index `1` — not the score `2` of the lowest chunk
index `0`. -/
theorem aggregate_first_not_lowest_chunk :
    aggregate_chunk_scores [⟨1, 5⟩, ⟨0, 2⟩] [0, 0] 1 "first"
      = some [⟨0, 5⟩] ∧ (5 : ℚ) ≠ 2 := by
  constructor
  · decide
  · decide

/-- C2 (amended): `aggregate_chunk_scores` collapses each document's group of
scores (collected in `chunk_results` order) per strategy: `max` yields the
group's highest score, `mean` its arithmetic mean, `first` the score of the
group's first entry in `chunk_results` order (the lowest chunk index only
when `chunk_results` is ordered by chunk index), and any unknown strategy
falls back to `max` (with a warning). -/
theorem aggregate_strategies (chunk_results : List RawResult) (doc_indices : List Nat)
    (num : Nat) (strategy : String) (out : List RawResult)
    (h : aggregate_chunk_scores chunk_results doc_indices num strategy = some out)
    (d : Nat) (hd : d < num) (hne : scoresFor chunk_results doc_indices d ≠ []) :
    ∃ r ∈ out, r.index = (d : Int) ∧
      (strategy = "max" →
        r.relevance_score ∈ scoresFor chunk_results doc_indices d ∧
        ∀ s ∈ scoresFor chunk_results doc_indices d, s ≤ r.relevance_score) ∧
      (strategy = "mean" →
        r.relevance_score = (scoresFor chunk_results doc_indices d).sum /
          (scoresFor chunk_results doc_indices d).length) ∧
      (strategy = "first" →
        r.relevance_score = (scoresFor chunk_results doc_indices d).headD 0) ∧
      (strategy ∉ (["max", "mean", "first"] : List String) →
        r.relevance_score ∈ scoresFor chunk_results doc_indices d ∧
        ∀ s ∈ scoresFor chunk_results doc_indices d, s ≤ r.relevance_score) := by
  refine ⟨_, aggregate_mem chunk_results doc_indices num strategy out h d hd hne,
    rfl, ?_, ?_, ?_, ?_⟩
  · intro hs
    subst hs
    simp only [aggScore, if_pos rfl]
    exact ⟨pyMax_mem _ hne, fun s hs => le_pyMax _ s hs⟩
  · intro hs
    subst hs
    simp [aggScore]
  · intro hs
    subst hs
    simp [aggScore]
  · intro hs
    simp only [List.mem_cons, List.mem_singleton, not_or] at hs
    obtain ⟨h1, h2, h3, -⟩ := hs
    simp only [aggScore, if_neg h1, if_neg h2, if_neg h3]
    exact ⟨pyMax_mem _ hne, fun s hs => le_pyMax _ s hs⟩

theorem aggregate_strategies_witness :
    ∃ r ∈ [(⟨0, 9⟩ : RawResult), ⟨1, 5⟩], r.index = ((0 : Nat) : Int) ∧
      (("max" : String) = "max" →
        r.relevance_score ∈ scoresFor [⟨0, 2⟩, ⟨1, 9⟩, ⟨2, 5⟩] [0, 0, 1] 0 ∧
        ∀ s ∈ scoresFor [⟨0, 2⟩, ⟨1, 9⟩, ⟨2, 5⟩] [0, 0, 1] 0, s ≤ r.relevance_score) ∧
      (("max" : String) = "mean" →
        r.relevance_score = (scoresFor [⟨0, 2⟩, ⟨1, 9⟩, ⟨2, 5⟩] [0, 0, 1] 0).sum /
          (scoresFor [⟨0, 2⟩, ⟨1, 9⟩, ⟨2, 5⟩] [0, 0, 1] 0).length) ∧
      (("max" : String) = "first" →
        r.relevance_score = (scoresFor [⟨0, 2⟩, ⟨1, 9⟩, ⟨2, 5⟩] [0, 0, 1] 0).headD 0) ∧
      (("max" : String) ∉ (["max", "mean", "first"] : List String) →
        r.relevance_score ∈ scoresFor [⟨0, 2⟩, ⟨1, 9⟩, ⟨2, 5⟩] [0, 0, 1] 0 ∧
        ∀ s ∈ scoresFor [⟨0, 2⟩, ⟨1, 9⟩, ⟨2, 5⟩] [0, 0, 1] 0, s ≤ r.relevance_score) :=
  aggregate_strategies [⟨0, 2⟩, ⟨1, 9⟩, ⟨2, 5⟩] [0, 0, 1] 2 "max" [⟨0, 9⟩, ⟨1, 5⟩]
    (by decide) 0 (by decide) (by decide)

/-- C8: in every successful `aggregate_chunk_scores` output, each document
index appears at most once, every index lies in `[0, num_original_docs)`,
and a document with an empty score group contributes no entry (no score is
synthesized). -/
theorem aggregate_invariants (chunk_results : List RawResult) (doc_indices : List Nat)
    (num : Nat) (strategy : String) (out : List RawResult)
    (h : aggregate_chunk_scores chunk_results doc_indices num strategy = some out) :
    (out.map fun r => r.index).Nodup ∧
    (∀ r ∈ out, 0 ≤ r.index ∧ r.index < (num : Int)) ∧
    (∀ r ∈ out, ∃ d : Nat, r.index = (d : Int) ∧
      scoresFor chunk_results doc_indices d ≠ []) := by
  refine ⟨?_, ?_, ?_⟩
  · unfold aggregate_chunk_scores at h
    split at h
    · simp only [Option.some.injEq] at h
      subst h
      have hperm := (sort_by_score_desc_perm ((List.range num).filterMap fun d =>
        if scoresFor chunk_results doc_indices d = [] then none
        else some ⟨(d : Int),
          aggScore strategy (scoresFor chunk_results doc_indices d)⟩)).map
        fun r => r.index
      rw [hperm.nodup_iff]
      rw [List.map_filterMap]
      refine List.Nodup.filterMap ?_ (List.nodup_range num)
      intro a a' b hb hb'
      by_cases ha : scoresFor chunk_results doc_indices a = [] <;>
        by_cases ha' : scoresFor chunk_results doc_indices a' = [] <;>
          simp [ha, ha'] at hb hb'
      omega
    · exact absurd h (by simp)
  · intro r hr
    obtain ⟨d, hd, hidx, -, -⟩ :=
      aggregate_shape chunk_results doc_indices num strategy out h r hr
    rw [hidx]
    constructor
    · exact Int.ofNat_nonneg d
    · exact_mod_cast hd
  · intro r hr
    obtain ⟨d, -, hidx, hne, -⟩ :=
      aggregate_shape chunk_results doc_indices num strategy out h r hr
    exact ⟨d, hidx, hne⟩

theorem aggregate_invariants_witness :
    (([(⟨0, 9⟩ : RawResult), ⟨1, 5⟩]).map fun r => r.index).Nodup ∧
    (∀ r ∈ [(⟨0, 9⟩ : RawResult), ⟨1, 5⟩], 0 ≤ r.index ∧ r.index < ((2 : Nat) : Int)) ∧
    (∀ r ∈ [(⟨0, 9⟩ : RawResult), ⟨1, 5⟩], ∃ d : Nat, r.index = (d : Int) ∧
      scoresFor [⟨0, 2⟩, ⟨1, 9⟩, ⟨2, 5⟩] [0, 0, 1] d ≠ []) :=
  aggregate_invariants [⟨0, 2⟩, ⟨1, 9⟩, ⟨2, 5⟩] [0, 0, 1] 2 "max" [⟨0, 9⟩, ⟨1, 5⟩]
    (by decide)

/-! ## Protocol Adapter (`generic_rerank_api`, rerank.py lines 174-365)

The HTTP layer is modelled by a `backend` function from the request payload
to either a transport failure (connection-level error, or a non-200 status
which the code turns into `aiohttp.ClientResponseError`) or a parsed JSON
body.  Headers (`Content-Type`, `Authorization`) do not influence any
claimed behaviour and are not modelled.  `extra_body` is carried as an
opaque extra field of the payload (its dict-merge into the JSON object is
abstracted). -/

/-- Free-form `extra_body` key/value pairs, kept opaque. -/
abbrev ExtraBody := List (String × String)

/-- The JSON request body: either the flat standard shape or the nested
aliyun shape (`request_format` records which); `top_n` and
`return_documents` are present iff not `none`. -/
structure Payload (α : Type) where
  request_format : String
  model : String
  query : String
  documents : List (List α)
  top_n : Option Nat
  return_documents : Option Bool
  extra : Option ExtraBody
deriving DecidableEq

/-- The `results` field of a response body: absent (`.get` default `[]`),
present but not a list (warning, treated as `[]`), or a list of results. -/
inductive ResultsField where
  | absent
  | malformed
  | items (rs : List RawResult)
deriving DecidableEq

/-- A 200-response body: the top-level `results` field (standard format)
and the `output.results` field (aliyun format). -/
structure RerankResponse where
  results : ResultsField
  output_results : ResultsField
deriving DecidableEq

/-- Transport-level failures: a connection-level `aiohttp.ClientError`
(`network`) or a non-200 response raised as `aiohttp.ClientResponseError`
(`http status`). -/
inductive HttpFailure where
  | network
  | http (status : Nat)
deriving DecidableEq

/-- Errors a rerank call can raise: missing base URL (`ValueError`),
unsupported format string (`ValueError`), a transport failure, the
`KeyError` from aggregation, or non-termination of the chunking loop. -/
inductive RerankError where
  | config (msg : String)
  | protocol (msg : String)
  | transport (f : HttpFailure)
  | keyError
  | nonTermination
deriving DecidableEq

/-- Payload construction (lines 244-284): aliyun nests `top_n` /
`return_documents` / extras under `parameters`; the standard shape is flat
and only honours `return_documents` for the `"standard"` response format. -/
def build_payload (request_format model query : String) (documents : List (List α))
    (top_n : Option Nat) (return_documents : Option Bool)
    (extra_body : Option ExtraBody) (response_format : String) : Payload α :=
  if request_format = "aliyun" then
    { request_format := "aliyun", model := model, query := query,
      documents := documents, top_n := top_n,
      return_documents := return_documents, extra := extra_body }
  else
    { request_format := request_format, model := model, query := query,
      documents := documents, top_n := top_n,
      return_documents :=
        if return_documents ≠ none ∧ response_format = "standard"
        then return_documents else none,
      extra := extra_body }

/-- Response parsing (lines 320-337): pick the results field per
`response_format` (aliyun first, then standard, other values raise
`ValueError`); an absent field defaults to `[]`, a malformed field is
logged and degraded to `[]`. -/
def extract_results (response_format : String) (resp : RerankResponse) :
    Except RerankError (List RawResult) :=
  if response_format = "aliyun" then
    match resp.output_results with
    | .items rs => .ok rs
    | _ => .ok []
  else if response_format = "standard" then
    match resp.results with
    | .items rs => .ok rs
    | _ => .ok []
  else .error (.protocol response_format)

/-- The chunking prologue (lines 223-242): with chunking enabled the
documents are chunked (overlap default 32) and the API-level `top_n` is
set to `None`; otherwise documents and `top_n` pass through.  Returns
`(documents to send, doc_indices, API-level top_n)`. -/
def generic_chunk_step (documents : List (List α)) (top_n : Option Nat)
    (enable_chunking : Bool) (max_tokens_per_doc : Nat) :
    Option (List (List α) × Option (List Nat) × Option Nat) :=
  if enable_chunking then
    match chunk_documents_for_rerank documents max_tokens_per_doc 32 with
    | some (cs, idxs) => some (cs, some idxs, none)
    | none => none
  else some (documents, none, top_n)

/-- The payload `generic_rerank_api` posts to the backend, as a function of
the call arguments (`none` when the chunking loop would not terminate). -/
def generic_request_payload (query : String) (documents : List (List α))
    (model : String) (top_n : Option Nat) (return_documents : Option Bool)
    (extra_body : Option ExtraBody) (response_format request_format : String)
    (enable_chunking : Bool) (max_tokens_per_doc : Nat) : Option (Payload α) :=
  (generic_chunk_step documents top_n enable_chunking max_tokens_per_doc).map
    fun s => build_payload request_format model query s.1 s.2.2 return_documents
      extra_body response_format

/-- The post-aggregation truncation (lines 359-363 and 643-644):
`if top_n is not None and len(results) > top_n: results = results[:top_n]`. -/
def apply_top_n (top_n : Option Nat) (l : List RawResult) : List RawResult :=
  match top_n with
  | some n => if n < l.length then l.take n else l
  | none => l

/-- `generic_rerank_api` (lines 182-365): check the base URL, run the
chunking prologue, build the payload, post it, parse the response
(`if not results: return []`), and — when chunking was enabled and produced
a nonempty index list — aggregate chunk scores with the hard-coded `"max"`
strategy and re-apply the caller's original `top_n` at document level.
The standardization step (lines 344-347) keeps `index` /
`relevance_score` unchanged and is the identity here. -/
def generic_rerank_api (query : String) (documents : List (List α)) (model : String)
    (base_url : String) (top_n : Option Nat) (return_documents : Option Bool)
    (extra_body : Option ExtraBody) (response_format request_format : String)
    (enable_chunking : Bool) (max_tokens_per_doc : Nat)
    (backend : Payload α → Except HttpFailure RerankResponse) :
    Except RerankError (List RawResult) :=
  if base_url = "" then .error (.config "Base URL is required")
  else
    match generic_chunk_step documents top_n enable_chunking max_tokens_per_doc with
    | none => .error .nonTermination
    | some (docs, doc_indices, api_top_n) =>
      match backend (build_payload request_format model query docs api_top_n
          return_documents extra_body response_format) with
      | .error f => .error (.transport f)
      | .ok resp =>
        match extract_results response_format resp with
        | .error e => .error e
        | .ok results =>
          if results = [] then .ok []
          else
            match doc_indices with
            | some idxs =>
              if enable_chunking ∧ idxs ≠ [] then
                match aggregate_chunk_scores results idxs documents.length "max" with
                | none => .error .keyError
                | some agg => .ok (apply_top_n top_n agg)
              else .ok results
            | none => .ok results

/-- `cohere_rerank` (lines 368-432): standard request and response formats,
no `return_documents`, chunking forwarded. -/
def cohere_rerank (query : String) (documents : List (List α)) (top_n : Option Nat)
    (extra_body : Option ExtraBody) (enable_chunking : Bool)
    (max_tokens_per_doc : Nat := 4096)
    (model : String := "rerank-v3.5")
    (base_url : String := "https://api.cohere.com/v2/rerank")
    (backend : Payload α → Except HttpFailure RerankResponse) :
    Except RerankError (List RawResult) :=
  generic_rerank_api query documents model base_url top_n none extra_body
    "standard" "standard" enable_chunking max_tokens_per_doc backend

/-- `jina_rerank` (lines 435-472): standard formats,
`return_documents=False`; chunking is not forwarded — `generic_rerank_api`
runs with its default `enable_chunking=False`, `max_tokens_per_doc=480`. -/
def jina_rerank (query : String) (documents : List (List α)) (top_n : Option Nat)
    (extra_body : Option ExtraBody)
    (model : String := "jina-reranker-v2-base-multilingual")
    (base_url : String := "https://api.jina.ai/v1/rerank")
    (backend : Payload α → Except HttpFailure RerankResponse) :
    Except RerankError (List RawResult) :=
  generic_rerank_api query documents model base_url top_n (some false) extra_body
    "standard" "standard" false 480 backend

/-- `ali_rerank` (lines 649-687): aliyun request and response formats,
`return_documents=False`; chunking is not forwarded (defaults apply). -/
def ali_rerank (query : String) (documents : List (List α)) (top_n : Option Nat)
    (extra_body : Option ExtraBody)
    (model : String := "gte-rerank-v2")
    (base_url : String := "https://dashscope.aliyuncs.com/api/v1/services/rerank/text-rerank/text-rerank")
    (backend : Payload α → Except HttpFailure RerankResponse) :
    Except RerankError (List RawResult) :=
  generic_rerank_api query documents model base_url top_n (some false) extra_body
    "aliyun" "aliyun" false 480 backend

/-! ## Batched Transport (`tei_rerank`, rerank.py lines 475-646)

The TEI backend is a function of the batch index, the batch's documents and
the attempt number (attempts may differ: the server's state can change
between retries), yielding a transport failure or the response list. -/

/-- One TEI result item `{"index": int, "score"?: float,
"relevance_score"?: float}`. -/
structure TeiRaw where
  index : Int
  score : Option ℚ
  relevance_score : Option ℚ
deriving DecidableEq

/-- `_tei_rerank_batch` result handling (lines 520-529): shift every
backend-local index by the batch offset and take
`result.get("score", result.get("relevance_score", 0.0))` as the score. -/
def tei_adjust (batch_offset : Nat) (rs : List TeiRaw) : List RawResult :=
  rs.map fun r =>
    ⟨r.index + (batch_offset : Int), r.score.getD (r.relevance_score.getD 0)⟩

/-- `max_retries = 3` (line 605). -/
def max_retries : Nat := 3

/-- The per-batch retry loop (lines 606-624): `for retry in range(3)`.
`attempt_result k` is the transport outcome of attempt `k`.  Only
`aiohttp.ClientResponseError` (`.http`) is caught; a connection-level
`aiohttp.ClientError` (`.network`) propagates immediately.  On a caught
failure with attempts left, sleep `4 * 2 ** retry` seconds (logged in the
second component) and try again; on the last attempt re-raise.
The fuel `0` case is unreachable from `max_retries = 3`. -/
def tei_retry_go (attempt_result : Nat → Except HttpFailure (List TeiRaw))
    (batch_offset : Nat) : Nat → Nat → Except HttpFailure (List RawResult) × List Nat
  | _, 0 => (.error .network, [])
  | attempt, rem + 1 =>
    match attempt_result attempt with
    | .ok rs => (.ok (tei_adjust batch_offset rs), [])
    | .error .network => (.error .network, [])
    | .error (.http s) =>
      if rem = 0 then (.error (.http s), [])
      else
        let p := tei_retry_go attempt_result batch_offset (attempt + 1) rem
        (p.1, 4 * 2 ^ attempt :: p.2)

/-- Batch partition (lines 593-598): `num_batches = (len + m - 1) // m`,
batch `b` is `documents[b*m : min(b*m + m, len)]`. -/
def tei_batches (documents : List δ) (m : Nat) : List (List δ) :=
  (List.range ((documents.length + m - 1) / m)).map fun b =>
    (documents.drop (b * m)).take (min (b * m + m) documents.length - b * m)

/-- The sequential batch loop (lines 595-624): each enumerated batch is
retried independently; the first exhausted/uncaught error aborts the loop
(results of earlier batches are discarded), otherwise adjusted results are
concatenated.  Sleeps of all batches are concatenated in order. -/
def tei_collect (backend : Nat → List δ → Nat → Except HttpFailure (List TeiRaw))
    (m : Nat) : List (Nat × List δ) → Except HttpFailure (List RawResult) × List Nat
  | [] => (.ok [], [])
  | (b, bdocs) :: rest =>
    match tei_retry_go (backend b bdocs) (b * m) 0 max_retries with
    | (.error e, ws) => (.error e, ws)
    | (.ok rs, ws) =>
      match tei_collect backend m rest with
      | (.error e, ws') => (.error e, ws ++ ws')
      | (.ok rs', ws') => (.ok (rs ++ rs'), ws ++ ws')

/-- The post-transport tail of `tei_rerank` (lines 630-646): sort all
results descending, aggregate with the hard-coded `"max"` strategy when
chunking was enabled and produced a nonempty index list. -/
def tei_aggregate_step (enable_chunking : Bool) (doc_indices : Option (List Nat))
    (num_docs : Nat) (sorted : List RawResult) : Except RerankError (List RawResult) :=
  match doc_indices with
  | some idxs =>
    if enable_chunking ∧ idxs ≠ [] then
      match aggregate_chunk_scores sorted idxs num_docs "max" with
      | none => .error .keyError
      | some agg => .ok agg
    else .ok sorted
  | none => .ok sorted

/-- `tei_rerank` (lines 532-646): check the base URL, optionally chunk,
partition into batches, run the sequential batch loop with per-batch
retry, then sort / aggregate / truncate.  The second component is the
ordered log of backoff sleeps (in seconds). -/
def tei_rerank (documents : List (List α)) (top_n : Option Nat) (base_url : String)
    (enable_chunking : Bool) (max_tokens_per_doc : Nat) (max_batch_size : Nat)
    (backend : Nat → List (List α) → Nat → Except HttpFailure (List TeiRaw)) :
    Except RerankError (List RawResult) × List Nat :=
  if base_url = "" then (.error (.config "Base URL is required"), [])
  else
    match (if enable_chunking then
        (chunk_documents_for_rerank documents max_tokens_per_doc 32).map
          fun p => (p.1, some p.2)
      else some (documents, none)) with
    | none => (.error .nonTermination, [])
    | some (docs, doc_indices) =>
      match tei_collect backend max_batch_size (tei_batches docs max_batch_size).enum with
      | (.error e, ws) => (.error (.transport e), ws)
      | (.ok all_results, ws) =>
        if all_results = [] then (.ok [], ws)
        else
          match tei_aggregate_step enable_chunking doc_indices documents.length
              (sort_by_score_desc all_results) with
          | .error e => (.error e, ws)
          | .ok final => (.ok (apply_top_n top_n final), ws)

/-! ### Adapter and transport lemmas -/

theorem build_payload_top_n (request_format model query : String)
    (documents : List (List α)) (top_n : Option Nat) (return_documents : Option Bool)
    (extra_body : Option ExtraBody) (response_format : String) :
    (build_payload request_format model query documents top_n return_documents
      extra_body response_format).top_n = top_n := by
  unfold build_payload
  split <;> rfl

theorem apply_top_n_some (n : Nat) (l : List RawResult) :
    apply_top_n (some n) l = l.take n := by
  simp only [apply_top_n]
  split
  · rfl
  · rename_i hlt
    rw [List.take_of_length_le (by omega)]

theorem apply_top_n_length (n : Nat) (l : List RawResult) :
    (apply_top_n (some n) l).length ≤ n := by
  rw [apply_top_n_some, List.length_take]
  omega

theorem apply_top_n_sorted (top_n : Option Nat) (l : List RawResult)
    (h : SortedByScoreDesc l) : SortedByScoreDesc (apply_top_n top_n l) := by
  cases top_n with
  | none => exact h
  | some n => rw [apply_top_n_some]; exact SortedByScoreDesc.take l n h

theorem apply_top_n_subset (top_n : Option Nat) (l : List RawResult)
    (r : RawResult) (hr : r ∈ apply_top_n top_n l) : r ∈ l := by
  cases top_n with
  | none => exact hr
  | some n => rw [apply_top_n_some] at hr; exact List.mem_of_mem_take hr

theorem aggregate_sorted (chunk_results : List RawResult) (doc_indices : List Nat)
    (num : Nat) (strategy : String) (out : List RawResult)
    (h : aggregate_chunk_scores chunk_results doc_indices num strategy = some out) :
    SortedByScoreDesc out := by
  unfold aggregate_chunk_scores at h
  split at h
  · simp only [Option.some.injEq] at h
    subst h
    exact sort_by_score_desc_sorted _
  · exact absurd h (by simp)

theorem chunk_indices_ne_nil (documents : List (List α)) (maxT ovl : Nat)
    (cs : List (List α)) (idxs : List Nat) (hne : documents ≠ [])
    (h : chunk_documents_for_rerank documents maxT ovl = some (cs, idxs)) :
    idxs ≠ [] := by
  cases documents with
  | nil => exact absurd rfl hne
  | cons d ds =>
    unfold chunk_documents_for_rerank chunkAll at h
    cases hd : chunkDoc maxT (effective_overlap maxT ovl) d with
    | none => rw [hd] at h; exact absurd h (by simp)
    | some dcs =>
      cases hrest : chunkAll maxT (effective_overlap maxT ovl) ds 1 with
      | none => rw [hd, hrest] at h; exact absurd h (by simp)
      | some p =>
        obtain ⟨cs', is'⟩ := p
        rw [hd, hrest] at h
        simp only [Option.some.injEq, Prod.mk.injEq] at h
        have hdcs := chunkDoc_ne_nil maxT (effective_overlap maxT ovl) d dcs hd
        rw [← h.2]
        intro hcontra
        rw [List.append_eq_nil] at hcontra
        cases dcs with
        | nil => exact absurd rfl hdcs
        | cons c cdcs => simp [List.replicate_succ] at hcontra

theorem generic_chunk_step_true_elim (documents : List (List α)) (top_n : Option Nat)
    (maxtpd : Nat) (s : List (List α) × Option (List Nat) × Option Nat)
    (h : generic_chunk_step documents top_n true maxtpd = some s) :
    ∃ cs idxs, chunk_documents_for_rerank documents maxtpd 32 = some (cs, idxs) ∧
      s = (cs, some idxs, none) := by
  unfold generic_chunk_step at h
  rw [if_pos rfl] at h
  cases hch : chunk_documents_for_rerank (α := α) documents maxtpd 32 with
  | none => rw [hch] at h; exact absurd h (by simp)
  | some p =>
    obtain ⟨cs, idxs⟩ := p
    rw [hch] at h
    simp only [Option.some.injEq] at h
    exact ⟨cs, idxs, rfl, h.symm⟩

/-- The success cases of `generic_rerank_api` with chunking enabled: either
the backend produced no results, or the output is the `"max"`-aggregated,
`top_n`-truncated document-level list. -/
theorem generic_chunked_ok_cases (query : String) (documents : List (List α))
    (model base_url : String) (top_n : Option Nat) (return_documents : Option Bool)
    (extra_body : Option ExtraBody) (response_format request_format : String)
    (max_tokens_per_doc : Nat)
    (backend : Payload α → Except HttpFailure RerankResponse) (out : List RawResult)
    (hdocs : documents ≠ [])
    (h : generic_rerank_api query documents model base_url top_n return_documents
      extra_body response_format request_format true max_tokens_per_doc backend
      = .ok out) :
    out = [] ∨ ∃ (cs : List (List α)) (idxs : List Nat)
      (results agg : List RawResult),
      chunk_documents_for_rerank documents max_tokens_per_doc 32 = some (cs, idxs) ∧
      results ≠ [] ∧
      aggregate_chunk_scores results idxs documents.length "max" = some agg ∧
      out = apply_top_n top_n agg := by
  unfold generic_rerank_api at h
  split at h
  · exact absurd h (by simp)
  · split at h
    · exact absurd h (by simp)
    · rename_i docs doc_indices api_top_n hstep
      obtain ⟨cs, idxs, hch, hs⟩ :=
        generic_chunk_step_true_elim documents top_n max_tokens_per_doc _ hstep
      rw [Prod.mk.injEq, Prod.mk.injEq] at hs
      obtain ⟨h1, h2, h3⟩ := hs
      subst h1
      subst h2
      split at h
      · exact absurd h (by simp)
      · split at h
        · exact absurd h (by simp)
        · rename_i results hex
          split at h
          · left
            simp only [Except.ok.injEq] at h
            exact h.symm
          · rename_i hres
            split at h
            · rename_i idxs2 hidxs2
              injection hidxs2 with hidxs2
              subst hidxs2
              split at h
              · split at h
                · exact absurd h (by simp)
                · rename_i agg hagg
                  simp only [Except.ok.injEq] at h
                  exact Or.inr ⟨_, _, results, agg, hch, hres, hagg, h.symm⟩
              · rename_i hcond
                exfalso
                exact hcond ⟨rfl, chunk_indices_ne_nil documents max_tokens_per_doc 32
                  _ _ hdocs hch⟩
            · rename_i hnone
              exact absurd hnone (by simp)

/-- The success cases of `tei_rerank`: the output is empty, or it is the
`top_n`-truncation of the sorted (and, when chunking contributed,
`"max"`-aggregated) result list. -/
theorem tei_ok_cases (documents : List (List α)) (top_n : Option Nat)
    (base_url : String) (enable_chunking : Bool)
    (max_tokens_per_doc max_batch_size : Nat)
    (backend : Nat → List (List α) → Nat → Except HttpFailure (List TeiRaw))
    (out : List RawResult) (ws : List Nat)
    (h : tei_rerank documents top_n base_url enable_chunking max_tokens_per_doc
      max_batch_size backend = (.ok out, ws)) :
    out = [] ∨ ∃ (doc_indices : Option (List Nat)) (all_results final : List RawResult),
      tei_aggregate_step enable_chunking doc_indices documents.length
        (sort_by_score_desc all_results) = .ok final ∧
      out = apply_top_n top_n final := by
  unfold tei_rerank at h
  split at h
  · exact absurd h (by simp)
  · split at h
    · exact absurd h (by simp)
    · rename_i docs doc_indices hopt
      split at h
      · exact absurd h (by simp)
      · rename_i all_results ws' hcol
        split at h
        · left
          simp only [Prod.mk.injEq, Except.ok.injEq] at h
          exact h.1.symm
        · split at h
          · exact absurd h (by simp)
          · rename_i final hstep
            simp only [Prod.mk.injEq, Except.ok.injEq] at h
            exact Or.inr ⟨doc_indices, all_results, final, hstep, h.1.symm⟩

theorem tei_aggregate_step_sorted (enable_chunking : Bool)
    (doc_indices : Option (List Nat)) (num : Nat) (l final : List RawResult)
    (h : tei_aggregate_step enable_chunking doc_indices num (sort_by_score_desc l)
      = .ok final) : SortedByScoreDesc final := by
  cases doc_indices with
  | none =>
    simp only [tei_aggregate_step, Except.ok.injEq] at h
    subst h
    exact sort_by_score_desc_sorted l
  | some idxs =>
    simp only [tei_aggregate_step] at h
    split at h
    · split at h
      · exact absurd h (by simp)
      · rename_i agg hagg
        simp only [Except.ok.injEq] at h
        subst h
        exact aggregate_sorted _ _ _ _ _ hagg
    · simp only [Except.ok.injEq] at h
      subst h
      exact sort_by_score_desc_sorted l

theorem tei_batches_length (documents : List δ) (m : Nat) :
    (tei_batches documents m).length = (documents.length + m - 1) / m := by
  simp [tei_batches]

theorem tei_batches_size (documents : List δ) (m : Nat) :
    ∀ b ∈ tei_batches documents m, b.length ≤ m := by
  intro b hb
  unfold tei_batches at hb
  rw [List.mem_map] at hb
  obtain ⟨i, hi, rfl⟩ := hb
  rw [List.length_take, List.length_drop]
  generalize i * m = k
  omega

theorem tei_batches_nil (m : Nat) : tei_batches ([] : List δ) m = [] := by
  unfold tei_batches
  have h : (List.length ([] : List δ) + m - 1) / m = 0 := by
    cases m with
    | zero => simp
    | succ k => rw [List.length_nil]; exact Nat.div_eq_of_lt (by omega)
  rw [h]
  simp

theorem tei_batches_cons (documents : List δ) (m : Nat) (hm : 1 ≤ m)
    (hne : documents ≠ []) :
    tei_batches documents m = documents.take m :: tei_batches (documents.drop m) m := by
  unfold tei_batches
  have hlen : 1 ≤ documents.length := List.length_pos.mpr hne
  by_cases hsmall : documents.length ≤ m
  · have hdrop : (documents.drop m).length = 0 := by rw [List.length_drop]; omega
    have hc1 : (documents.length + m - 1) / m = 1 :=
      Nat.div_eq_of_lt_le (by omega) (by omega)
    have hc0 : ((documents.drop m).length + m - 1) / m = 0 := by
      rw [hdrop]
      exact Nat.div_eq_of_lt (by omega)
    rw [hc1, hc0]
    rw [show List.range 1 = [0] from by simp [List.range_succ]]
    simp only [List.map_cons, List.map_nil, Nat.zero_mul, Nat.zero_add,
      Nat.sub_zero, List.drop_zero]
    rw [min_eq_right hsmall, List.take_length, List.take_of_length_le hsmall]
    rfl
  · push_neg at hsmall
    have hc : (documents.length + m - 1) / m
        = ((documents.drop m).length + m - 1) / m + 1 := by
      rw [List.length_drop]
      have h1 : documents.length + m - 1 = (documents.length - 1) + m := by omega
      have h2 : documents.length - m + m - 1 = documents.length - 1 := by omega
      rw [h1, h2, Nat.add_div_right _ (by omega)]
    rw [hc, List.range_succ_eq_map, List.map_cons, List.map_map]
    congr 1
    · rw [Nat.zero_mul, Nat.zero_add, Nat.sub_zero, List.drop_zero,
        min_eq_left (by omega)]
    · apply List.map_congr_left
      intro b hb
      simp only [Function.comp_apply, Nat.succ_mul, List.drop_drop, List.length_drop]
      rw [show m + b * m = b * m + m from Nat.add_comm m (b * m)]
      congr 1
      generalize b * m = k
      omega

theorem tei_batches_flatten (m : Nat) (hm : 1 ≤ m) (documents : List δ) :
    (tei_batches documents m).flatten = documents := by
  have key : ∀ (L : Nat) (l : List δ), l.length = L →
      (tei_batches l m).flatten = l := by
    intro L
    induction L using Nat.strong_induction_on with
    | _ L ih =>
      intro l hL
      cases l with
      | nil => rw [tei_batches_nil]; rfl
      | cons d ds =>
        rw [tei_batches_cons _ m hm (by simp), List.flatten_cons]
        have hlt : ((d :: ds).drop m).length < L := by
          rw [List.length_drop]
          simp only [List.length_cons] at hL ⊢
          omega
        rw [ih _ hlt _ rfl]
        exact List.take_append_drop m (d :: ds)
  exact key documents.length documents rfl

theorem tei_retry_http_http_ok (res : Nat → Except HttpFailure (List TeiRaw))
    (offset s0 s1 : Nat) (rs : List TeiRaw)
    (h0 : res 0 = .error (.http s0)) (h1 : res 1 = .error (.http s1))
    (h2 : res 2 = .ok rs) :
    tei_retry_go res offset 0 max_retries = (.ok (tei_adjust offset rs), [4, 8]) := by
  simp only [max_retries, tei_retry_go, h0, h1, h2]
  norm_num

theorem tei_retry_exhausted (res : Nat → Except HttpFailure (List TeiRaw))
    (offset s0 s1 s2 : Nat)
    (h0 : res 0 = .error (.http s0)) (h1 : res 1 = .error (.http s1))
    (h2 : res 2 = .error (.http s2)) :
    tei_retry_go res offset 0 max_retries = (.error (.http s2), [4, 8]) := by
  simp only [max_retries, tei_retry_go, h0, h1, h2]
  norm_num

theorem tei_retry_network_immediate (res : Nat → Except HttpFailure (List TeiRaw))
    (offset : Nat) (h0 : res 0 = .error .network) :
    tei_retry_go res offset 0 max_retries = (.error .network, []) := by
  simp only [max_retries, tei_retry_go, h0]

/-- The success cases of `tei_rerank` with chunking enabled on a nonempty
document list: either no results, or a `"max"`-aggregated,
`top_n`-truncated output. -/
theorem tei_chunked_ok_cases (documents : List (List α)) (top_n : Option Nat)
    (base_url : String) (max_tokens_per_doc max_batch_size : Nat)
    (backend : Nat → List (List α) → Nat → Except HttpFailure (List TeiRaw))
    (out : List RawResult) (ws : List Nat) (hdocs : documents ≠ [])
    (h : tei_rerank documents top_n base_url true max_tokens_per_doc
      max_batch_size backend = (.ok out, ws)) :
    out = [] ∨ ∃ (cs : List (List α)) (idxs : List Nat)
      (all_results agg : List RawResult),
      chunk_documents_for_rerank documents max_tokens_per_doc 32 = some (cs, idxs) ∧
      aggregate_chunk_scores (sort_by_score_desc all_results) idxs
        documents.length "max" = some agg ∧
      out = apply_top_n top_n agg := by
  unfold tei_rerank at h
  split at h
  · exact absurd h (by simp)
  · split at h
    · exact absurd h (by simp)
    · rename_i docs doc_indices hopt
      rw [if_pos rfl] at hopt
      have hopt2 : ∃ cs idxs,
          chunk_documents_for_rerank (α := α) documents max_tokens_per_doc 32
            = some (cs, idxs) ∧ docs = cs ∧ doc_indices = some idxs := by
        cases hch : chunk_documents_for_rerank (α := α) documents
            max_tokens_per_doc 32 with
        | none => rw [hch] at hopt; exact absurd hopt (by simp)
        | some p =>
          obtain ⟨cs, idxs⟩ := p
          rw [hch] at hopt
          simp only [Option.map_some', Option.some.injEq, Prod.mk.injEq] at hopt
          exact ⟨cs, idxs, rfl, hopt.1.symm, hopt.2.symm⟩
      obtain ⟨cs, idxs, hch, hdo, hdi⟩ := hopt2
      subst hdo
      subst hdi
      split at h
      · exact absurd h (by simp)
      · rename_i all_results ws' hcol
        split at h
        · left
          simp only [Prod.mk.injEq, Except.ok.injEq] at h
          exact h.1.symm
        · split at h
          · rename_i e hstep
            exact absurd h (by simp)
          · rename_i final hstep
            simp only [Prod.mk.injEq, Except.ok.injEq] at h
            simp only [tei_aggregate_step] at hstep
            rw [if_pos (And.intro trivial (chunk_indices_ne_nil documents
              max_tokens_per_doc 32 _ _ hdocs hch))] at hstep
            cases hagg : aggregate_chunk_scores (sort_by_score_desc all_results)
                _ documents.length "max" with
            | none => rw [hagg] at hstep; exact absurd hstep (by simp)
            | some agg =>
              rw [hagg] at hstep
              simp only [Except.ok.injEq] at hstep
              subst hstep
              exact Or.inr ⟨_, _, all_results, agg, hch, hagg, h.1.symm⟩

/-- C1: for every `generic_rerank_api` call with chunking enabled and a
caller-supplied `top_n`, the payload posted to the backend carries no
`top_n` (it is `none`), and the caller's `top_n` is applied only after
chunk-to-document aggregation, truncating the aggregated document-level
list to at most `top_n` entries. -/
theorem generic_top_n_suppression (query : String) (documents : List (List α))
    (model base_url : String) (n : Nat) (return_documents : Option Bool)
    (extra_body : Option ExtraBody) (response_format request_format : String)
    (max_tokens_per_doc : Nat) (hdocs : documents ≠ []) :
    (∀ p : Payload α, generic_request_payload query documents model (some n)
        return_documents extra_body response_format request_format true
        max_tokens_per_doc = some p → p.top_n = none) ∧
    (∀ (backend : Payload α → Except HttpFailure RerankResponse)
        (out : List RawResult),
      generic_rerank_api query documents model base_url (some n) return_documents
          extra_body response_format request_format true max_tokens_per_doc backend
        = .ok out →
      out.length ≤ n ∧
      (out ≠ [] → ∃ (idxs : List Nat) (results agg : List RawResult),
        aggregate_chunk_scores results idxs documents.length "max" = some agg ∧
        out = agg.take n)) := by
  constructor
  · intro p hp
    unfold generic_request_payload at hp
    cases hstep : generic_chunk_step (α := α) documents (some n) true
        max_tokens_per_doc with
    | none => rw [hstep] at hp; exact absurd hp (by simp)
    | some s =>
      rw [hstep] at hp
      simp only [Option.map_some', Option.some.injEq] at hp
      obtain ⟨cs, idxs, hch, hs⟩ :=
        generic_chunk_step_true_elim documents (some n) max_tokens_per_doc s hstep
      rw [← hp, hs, build_payload_top_n]
  · intro backend out h
    rcases generic_chunked_ok_cases query documents model base_url (some n)
        return_documents extra_body response_format request_format
        max_tokens_per_doc backend out hdocs h with
      hnil | ⟨cs, idxs, results, agg, hch, hres, hagg, hout⟩
    · subst hnil
      exact ⟨by simp, fun hc => absurd rfl hc⟩
    · subst hout
      rw [apply_top_n_some]
      refine ⟨by rw [List.length_take]; omega, fun _ => ⟨idxs, results, agg, hagg, rfl⟩⟩

theorem generic_top_n_suppression_witness :
    (([[0]] : List (List Nat)) ≠ []) ∧
    ((∀ p : Payload Nat, generic_request_payload "q" [[0]] "m" (some 1)
        none none "standard" "standard" true 480 = some p → p.top_n = none) ∧
    (∀ (backend : Payload Nat → Except HttpFailure RerankResponse)
        (out : List RawResult),
      generic_rerank_api "q" [[0]] "m" "u" (some 1) none none "standard"
          "standard" true 480 backend = .ok out →
      out.length ≤ 1 ∧
      (out ≠ [] → ∃ (idxs : List Nat) (results agg : List RawResult),
        aggregate_chunk_scores results idxs ([[0]] : List (List Nat)).length "max"
          = some agg ∧ out = agg.take 1))) :=
  ⟨by decide, generic_top_n_suppression "q" [[0]] "m" "u" 1 none none
    "standard" "standard" 480 (by decide)⟩

set_option maxRecDepth 16000 in
/-- C3: for every document list and `max_batch_size ≥ 1`, the batch
partition used by `tei_rerank` consists of `⌈n / m⌉` consecutive batches of
size at most `m` whose concatenation is the input; backend-local indices
are shifted by the batch offset (`tei_adjust`); concretely, 150 documents
with `max_batch_size = 64` give batch sizes `[64, 64, 22]`, and a
backend-local index `5` in the batch at offset `64` surfaces as global
index `69` in the `tei_rerank` output. -/
theorem tei_batching (documents : List δ) (m : Nat) (hm : 1 ≤ m) :
    (tei_batches documents m).length = (documents.length + m - 1) / m ∧
    (∀ b ∈ tei_batches documents m, b.length ≤ m) ∧
    (tei_batches documents m).flatten = documents ∧
    (tei_batches (List.range 150) 64).map List.length = [64, 64, 22] ∧
    tei_rerank ((List.range 150).map fun i => [i]) none
        "http://localhost:8080/rerank" false 480 64
        (fun b _ _ => if b = 1 then .ok [⟨5, some 9, none⟩] else .ok [])
      = (.ok [⟨69, 9⟩], []) := by
  refine ⟨tei_batches_length documents m, tei_batches_size documents m,
    tei_batches_flatten m hm documents, by decide, by rfl⟩

set_option maxRecDepth 16000 in
theorem tei_batching_witness :
    1 ≤ 2 ∧
    ((tei_batches (List.range 5) 2).length = (5 + 2 - 1) / 2 ∧
     (∀ b ∈ tei_batches (List.range 5) 2, b.length ≤ 2) ∧
     (tei_batches (List.range 5) 2).flatten = List.range 5 ∧
     (tei_batches (List.range 150) 64).map List.length = [64, 64, 22] ∧
     tei_rerank ((List.range 150).map fun i => [i]) none
         "http://localhost:8080/rerank" false 480 64
         (fun b _ _ => if b = 1 then .ok [⟨5, some 9, none⟩] else .ok [])
       = (.ok [⟨69, 9⟩], [])) := by
  refine ⟨by decide, ?_⟩
  have h := tei_batching (List.range 5) 2 (by decide)
  rwa [show (List.range 5).length = 5 from by decide] at h

/-- C9: a 200 response whose results field is present but not a list
(top-level `results` for the standard format, `output.results` for the
aliyun format) makes `generic_rerank_api` log a warning and return an empty
list instead of raising. -/
theorem malformed_results_give_empty (query : String) (documents : List (List α))
    (model base_url : String) (top_n : Option Nat) (return_documents : Option Bool)
    (extra_body : Option ExtraBody) (request_format : String)
    (enable_chunking : Bool) (max_tokens_per_doc : Nat) (resp : RerankResponse)
    (s : List (List α) × Option (List Nat) × Option Nat)
    (hurl : base_url ≠ "")
    (hstep : generic_chunk_step documents top_n enable_chunking max_tokens_per_doc
      = some s) :
    (resp.results = .malformed →
      generic_rerank_api query documents model base_url top_n return_documents
          extra_body "standard" request_format enable_chunking max_tokens_per_doc
          (fun _ => .ok resp) = .ok []) ∧
    (resp.output_results = .malformed →
      generic_rerank_api query documents model base_url top_n return_documents
          extra_body "aliyun" request_format enable_chunking max_tokens_per_doc
          (fun _ => .ok resp) = .ok []) := by
  obtain ⟨docs, di, atn⟩ := s
  constructor <;> intro hres <;>
  · unfold generic_rerank_api
    rw [if_neg hurl, hstep]
    simp [extract_results, hres]

theorem malformed_results_give_empty_witness :
    ("u" ≠ "") ∧
    ((RerankResponse.mk .malformed .malformed).results = .malformed →
      generic_rerank_api "q" ([[0]] : List (List Nat)) "m" "u" none none none
          "standard" "standard" false 480
          (fun _ => .ok (RerankResponse.mk .malformed .malformed)) = .ok []) ∧
    ((RerankResponse.mk .malformed .malformed).output_results = .malformed →
      generic_rerank_api "q" ([[0]] : List (List Nat)) "m" "u" none none none
          "aliyun" "standard" false 480
          (fun _ => .ok (RerankResponse.mk .malformed .malformed)) = .ok []) :=
  ⟨by decide, malformed_results_give_empty "q" [[0]] "m" "u" none none none
    "standard" false 480 (RerankResponse.mk .malformed .malformed)
    ([[0]], none, none) (by decide) rfl⟩

/-- C6 counterexample: without chunking, `generic_rerank_api` returns the
backend's standardized results verbatim: with `top_n = 1` and a backend
answering two results in ascending score order, the caller receives a list
of length 2 (exceeding `top_n`) that is not sorted descending. -/
theorem generic_unchunked_passthrough_counterexample :
    generic_rerank_api "q" ([[0], [1]] : List (List Nat)) "m" "u" (some 1) none
        none "standard" "standard" false 480
        (fun _ => .ok ⟨.items [⟨0, 1⟩, ⟨1, 9⟩], .absent⟩)
      = .ok [⟨0, 1⟩, ⟨1, 9⟩] ∧
    ¬ SortedByScoreDesc [(⟨0, 1⟩ : RawResult), ⟨1, 9⟩] ∧
    ¬ (([(⟨0, 1⟩ : RawResult), ⟨1, 9⟩]).length ≤ 1) := by
  refine ⟨rfl, ?_, by decide⟩
  intro hsort
  rw [SortedByScoreDesc, List.pairwise_cons] at hsort
  have h9 := hsort.1 ⟨1, 9⟩ (by simp)
  norm_num at h9

/-- C6 (amended): for successful calls, the return contract — sorted by
`relevance_score` descending, indices in the caller's original document
range, length at most `top_n` — holds for `generic_rerank_api` whenever
chunking is enabled; `tei_rerank` always returns a sorted,
`top_n`-truncated list; without chunking `generic_rerank_api` returns the
backend's standardized results unchanged (their order, length and indices
are whatever the backend sent). -/
theorem rerank_return_contract (query : String) (documents : List (List α))
    (model base_url : String) (top_n : Option Nat) (return_documents : Option Bool)
    (extra_body : Option ExtraBody) (response_format request_format : String)
    (max_tokens_per_doc max_batch_size : Nat) (hdocs : documents ≠ []) :
    (∀ (backend : Payload α → Except HttpFailure RerankResponse)
        (out : List RawResult),
      generic_rerank_api query documents model base_url top_n return_documents
          extra_body response_format request_format true max_tokens_per_doc backend
        = .ok out →
      SortedByScoreDesc out ∧
      (∀ n, top_n = some n → out.length ≤ n) ∧
      (∀ r ∈ out, 0 ≤ r.index ∧ r.index < (documents.length : Int))) ∧
    (∀ (resp : RerankResponse) (results out : List RawResult), base_url ≠ "" →
      extract_results response_format resp = .ok results →
      generic_rerank_api query documents model base_url top_n return_documents
          extra_body response_format request_format false max_tokens_per_doc
          (fun _ => .ok resp) = .ok out →
      out = results) ∧
    (∀ (tbackend : Nat → List (List α) → Nat → Except HttpFailure (List TeiRaw))
        (enable_chunking : Bool) (out : List RawResult) (ws : List Nat),
      tei_rerank documents top_n base_url enable_chunking max_tokens_per_doc
          max_batch_size tbackend = (.ok out, ws) →
      SortedByScoreDesc out ∧ (∀ n, top_n = some n → out.length ≤ n)) := by
  refine ⟨?_, ?_, ?_⟩
  · intro backend out h
    rcases generic_chunked_ok_cases query documents model base_url top_n
        return_documents extra_body response_format request_format
        max_tokens_per_doc backend out hdocs h with
      hnil | ⟨cs, idxs, results, agg, hch, hres, hagg, hout⟩
    · subst hnil
      exact ⟨List.Pairwise.nil, fun n _ => by simp, by simp⟩
    · subst hout
      have hsorted := aggregate_sorted results idxs documents.length "max" agg hagg
      refine ⟨apply_top_n_sorted top_n agg hsorted, ?_, ?_⟩
      · intro n hn
        subst hn
        exact apply_top_n_length n agg
      · intro r hr
        have hragg := apply_top_n_subset top_n agg r hr
        obtain ⟨d, hd, hidx, -, -⟩ :=
          aggregate_shape results idxs documents.length "max" agg hagg r hragg
        rw [hidx]
        exact ⟨Int.ofNat_nonneg d, by exact_mod_cast hd⟩
  · intro resp results out hurl hex h
    unfold generic_rerank_api at h
    rw [if_neg hurl] at h
    have hstep : generic_chunk_step (α := α) documents top_n false max_tokens_per_doc
        = some (documents, none, top_n) := by
      simp [generic_chunk_step]
    rw [hstep] at h
    simp only [hex] at h
    split at h
    · rename_i hres
      simp only [Except.ok.injEq] at h
      rw [← h, hres]
    · simp only [Except.ok.injEq] at h
      exact h.symm
  · intro tbackend enable_chunking out ws h
    rcases tei_ok_cases documents top_n base_url enable_chunking max_tokens_per_doc
        max_batch_size tbackend out ws h with
      hnil | ⟨doc_indices, all_results, final, hstep, hout⟩
    · subst hnil
      exact ⟨List.Pairwise.nil, fun n _ => by simp⟩
    · subst hout
      have hsorted := tei_aggregate_step_sorted enable_chunking doc_indices
        documents.length all_results final hstep
      refine ⟨apply_top_n_sorted top_n final hsorted, ?_⟩
      intro n hn
      subst hn
      exact apply_top_n_length n final

theorem rerank_return_contract_witness :
    (([[0]] : List (List Nat)) ≠ []) ∧
    ((∀ (backend : Payload Nat → Except HttpFailure RerankResponse)
        (out : List RawResult),
      generic_rerank_api "q" [[0]] "m" "u" (some 1) none none "standard"
          "standard" true 480 backend = .ok out →
      SortedByScoreDesc out ∧
      (∀ n, (some 1 : Option Nat) = some n → out.length ≤ n) ∧
      (∀ r ∈ out, 0 ≤ r.index ∧ r.index < (([[0]] : List (List Nat)).length : Int))) ∧
    (∀ (resp : RerankResponse) (results out : List RawResult), ("u" : String) ≠ "" →
      extract_results "standard" resp = .ok results →
      generic_rerank_api "q" [[0]] "m" "u" (some 1) none none "standard"
          "standard" false 480 (fun _ => .ok resp) = .ok out →
      out = results) ∧
    (∀ (tbackend : Nat → List (List Nat) → Nat → Except HttpFailure (List TeiRaw))
        (enable_chunking : Bool) (out : List RawResult) (ws : List Nat),
      tei_rerank [[0]] (some 1) "u" enable_chunking 480 64 tbackend
        = (.ok out, ws) →
      SortedByScoreDesc out ∧ (∀ n, (some 1 : Option Nat) = some n → out.length ≤ n))) :=
  ⟨by decide, rerank_return_contract "q" [[0]] "m" "u" (some 1) none none
    "standard" "standard" 480 64 (by decide)⟩

/-- C7 counterexample: `tei_rerank` retries only `aiohttp.ClientResponseError`
(non-200 responses); a connection-level network failure on the first attempt
is NOT retried — the call aborts immediately with no backoff sleeps, even
though the very next attempt would have succeeded — whereas the same
scenario with an HTTP failure on the first attempt is retried once (one 4 s
sleep) and succeeds. -/
theorem tei_network_not_retried_counterexample :
    tei_rerank ([[0]] : List (List Nat)) none "u" false 480 64
        (fun _ _ attempt => if attempt = 0 then .error .network
          else .ok [⟨0, some 1, none⟩])
      = (.error (.transport .network), []) ∧
    tei_rerank ([[0]] : List (List Nat)) none "u" false 480 64
        (fun _ _ attempt => if attempt = 0 then .error (.http 500)
          else .ok [⟨0, some 1, none⟩])
      = (.ok [⟨0, 1⟩], [4]) := by
  exact ⟨rfl, rfl⟩

/-- C7 (amended): in `tei_rerank` each batch is retried independently up to
3 attempts with backoff `4 * 2 ^ retry` seconds between attempts on HTTP
response errors (non-200, `aiohttp.ClientResponseError`) only — network
failures propagate immediately without retry; once the 3 attempts for one
batch are exhausted (or a network failure occurs), the error propagates and
the whole call aborts, returning an error with no partial results from
earlier successful batches. -/
theorem tei_retry_policy (res : Nat → Except HttpFailure (List TeiRaw))
    (offset s0 s1 s2 : Nat) (rs : List TeiRaw)
    (h0 : res 0 = .error (.http s0)) (h1 : res 1 = .error (.http s1)) :
    (res 2 = .ok rs →
      tei_retry_go res offset 0 max_retries = (.ok (tei_adjust offset rs), [4, 8])) ∧
    (res 2 = .error (.http s2) →
      tei_retry_go res offset 0 max_retries = (.error (.http s2), [4, 8])) ∧
    (∀ res2 : Nat → Except HttpFailure (List TeiRaw), res2 0 = .error .network →
      tei_retry_go res2 offset 0 max_retries = (.error .network, [])) ∧
    tei_rerank (((List.range 100).map fun i => [i]) : List (List Nat)) none "u"
        false 480 64
        (fun b _ _ => if b = 0 then .ok [⟨0, some 1, none⟩] else .error (.http 500))
      = (.error (.transport (.http 500)), [4, 8]) := by
  refine ⟨fun h2 => tei_retry_http_http_ok res offset s0 s1 rs h0 h1 h2,
    fun h2 => tei_retry_exhausted res offset s0 s1 s2 h0 h1 h2,
    fun res2 h => tei_retry_network_immediate res2 offset h, by rfl⟩

set_option maxRecDepth 16000 in
theorem tei_retry_policy_witness :
    ((fun a => if a = 0 then Except.error (ε := HttpFailure) (.http 500)
        else if a = 1 then .error (.http 502)
        else .ok ([⟨0, some 1, none⟩] : List TeiRaw)) 0 = .error (.http 500)) ∧
    ((fun a => if a = 0 then Except.error (ε := HttpFailure) (.http 500)
        else if a = 1 then .error (.http 502)
        else .ok ([⟨0, some 1, none⟩] : List TeiRaw)) 1 = .error (.http 502)) ∧
    (((fun a => if a = 0 then Except.error (ε := HttpFailure) (.http 500)
        else if a = 1 then .error (.http 502)
        else .ok ([⟨0, some 1, none⟩] : List TeiRaw)) 2
        = .ok [⟨0, some 1, none⟩] →
      tei_retry_go (fun a => if a = 0 then .error (.http 500)
        else if a = 1 then .error (.http 502)
        else .ok [⟨0, some 1, none⟩]) 64 0 max_retries
        = (.ok (tei_adjust 64 [⟨0, some 1, none⟩]), [4, 8])) ∧
    ((fun a => if a = 0 then Except.error (ε := HttpFailure) (.http 500)
        else if a = 1 then .error (.http 502)
        else .ok ([⟨0, some 1, none⟩] : List TeiRaw)) 2 = .error (.http 503) →
      tei_retry_go (fun a => if a = 0 then .error (.http 500)
        else if a = 1 then .error (.http 502)
        else .ok [⟨0, some 1, none⟩]) 64 0 max_retries
        = (.error (.http 503), [4, 8])) ∧
    (∀ res2 : Nat → Except HttpFailure (List TeiRaw), res2 0 = .error .network →
      tei_retry_go res2 64 0 max_retries = (.error .network, [])) ∧
    tei_rerank (((List.range 100).map fun i => [i]) : List (List Nat)) none "u"
        false 480 64
        (fun b _ _ => if b = 0 then .ok [⟨0, some 1, none⟩] else .error (.http 500))
      = (.error (.transport (.http 500)), [4, 8])) :=
  ⟨rfl, rfl, tei_retry_policy (fun a => if a = 0 then .error (.http 500)
    else if a = 1 then .error (.http 502) else .ok [⟨0, some 1, none⟩])
    64 500 502 503 [⟨0, some 1, none⟩] rfl rfl⟩

/-- C10: whenever chunking is enabled and documents exist, every successful
chunked call through `generic_rerank_api` and `tei_rerank` produces its
output by `aggregate_chunk_scores` with the hard-coded `"max"` strategy
(followed only by `top_n` truncation); `cohere_rerank`, `jina_rerank` and
`ali_rerank` are definitionally delegations to `generic_rerank_api`
(`jina_rerank` and `ali_rerank` always with chunking disabled), so no
public entry point can reach the `"mean"` or `"first"` strategies. -/
theorem chunked_aggregation_always_max (query : String) (documents : List (List α))
    (model base_url : String) (top_n : Option Nat) (return_documents : Option Bool)
    (extra_body : Option ExtraBody) (response_format request_format : String)
    (max_tokens_per_doc max_batch_size : Nat) (enable_chunking : Bool)
    (hdocs : documents ≠ []) :
    (∀ (backend : Payload α → Except HttpFailure RerankResponse)
        (out : List RawResult),
      generic_rerank_api query documents model base_url top_n return_documents
          extra_body response_format request_format true max_tokens_per_doc backend
        = .ok out →
      out = [] ∨ ∃ (cs : List (List α)) (idxs : List Nat)
        (results agg : List RawResult),
        chunk_documents_for_rerank documents max_tokens_per_doc 32 = some (cs, idxs) ∧
        aggregate_chunk_scores results idxs documents.length "max" = some agg ∧
        out = apply_top_n top_n agg) ∧
    (∀ (tbackend : Nat → List (List α) → Nat → Except HttpFailure (List TeiRaw))
        (out : List RawResult) (ws : List Nat),
      tei_rerank documents top_n base_url true max_tokens_per_doc max_batch_size
          tbackend = (.ok out, ws) →
      out = [] ∨ ∃ (cs : List (List α)) (idxs : List Nat)
        (all_results agg : List RawResult),
        chunk_documents_for_rerank documents max_tokens_per_doc 32 = some (cs, idxs) ∧
        aggregate_chunk_scores (sort_by_score_desc all_results) idxs
          documents.length "max" = some agg ∧
        out = apply_top_n top_n agg) ∧
    (∀ backend, cohere_rerank query documents top_n extra_body enable_chunking
        max_tokens_per_doc model base_url backend
      = generic_rerank_api query documents model base_url top_n none extra_body
        "standard" "standard" enable_chunking max_tokens_per_doc backend) ∧
    (∀ backend, jina_rerank query documents top_n extra_body model base_url backend
      = generic_rerank_api query documents model base_url top_n (some false)
        extra_body "standard" "standard" false 480 backend) ∧
    (∀ backend, ali_rerank query documents top_n extra_body model base_url backend
      = generic_rerank_api query documents model base_url top_n (some false)
        extra_body "aliyun" "aliyun" false 480 backend) := by
  refine ⟨?_, ?_, fun _ => rfl, fun _ => rfl, fun _ => rfl⟩
  · intro backend out h
    rcases generic_chunked_ok_cases query documents model base_url top_n
        return_documents extra_body response_format request_format
        max_tokens_per_doc backend out hdocs h with
      hnil | ⟨cs, idxs, results, agg, hch, hres, hagg, hout⟩
    · exact Or.inl hnil
    · exact Or.inr ⟨cs, idxs, results, agg, hch, hagg, hout⟩
  · intro tbackend out ws h
    exact tei_chunked_ok_cases documents top_n base_url max_tokens_per_doc
      max_batch_size tbackend out ws hdocs h

theorem chunked_aggregation_always_max_witness :
    (([[0]] : List (List Nat)) ≠ []) ∧
    ((∀ (backend : Payload Nat → Except HttpFailure RerankResponse)
        (out : List RawResult),
      generic_rerank_api "q" [[0]] "m" "u" none none none "standard"
          "standard" true 480 backend = .ok out →
      out = [] ∨ ∃ (cs : List (List Nat)) (idxs : List Nat)
        (results agg : List RawResult),
        chunk_documents_for_rerank [[0]] 480 32 = some (cs, idxs) ∧
        aggregate_chunk_scores results idxs ([[0]] : List (List Nat)).length "max"
          = some agg ∧
        out = apply_top_n none agg) ∧
    (∀ (tbackend : Nat → List (List Nat) → Nat → Except HttpFailure (List TeiRaw))
        (out : List RawResult) (ws : List Nat),
      tei_rerank [[0]] none "u" true 480 64 tbackend = (.ok out, ws) →
      out = [] ∨ ∃ (cs : List (List Nat)) (idxs : List Nat)
        (all_results agg : List RawResult),
        chunk_documents_for_rerank [[0]] 480 32 = some (cs, idxs) ∧
        aggregate_chunk_scores (sort_by_score_desc all_results) idxs
          ([[0]] : List (List Nat)).length "max" = some agg ∧
        out = apply_top_n none agg) ∧
    (∀ backend, cohere_rerank "q" [[0]] none none false 480 "m" "u" backend
      = generic_rerank_api "q" [[0]] "m" "u" none none none
        "standard" "standard" false 480 backend) ∧
    (∀ backend, jina_rerank "q" [[0]] none none "m" "u" backend
      = generic_rerank_api "q" [[0]] "m" "u" none (some false) none
        "standard" "standard" false 480 backend) ∧
    (∀ backend, ali_rerank "q" [[0]] none none "m" "u" backend
      = generic_rerank_api "q" [[0]] "m" "u" none (some false) none
        "aliyun" "aliyun" false 480 backend)) :=
  ⟨by decide, chunked_aggregation_always_max "q" [[0]] "m" "u" none none none
    "standard" "standard" 480 64 false (by decide)⟩

end RerankSpec
